import Mathlib

/-!
Verification of the passgen strength/safety core (checker.rs, alphabet.rs,
wordlist.rs, commonwords.rs) against its specification.

Strings are modelled as `List Char` (Rust `str` is a sequence of Unicode
scalar values stored as UTF-8 bytes).  Byte-level structure, where the Rust
code depends on it (`str::len`, byte-indexed slicing in the word-break
dynamic program), is recovered through `charSize`, the UTF-8 encoded size of
a scalar value.  A Rust slice `&s[j..i]` panics when `j` or `i` is not a
character boundary; fallible computations are therefore modelled in
`Except Unit`, with `.error ()` standing for a panic.
-/

namespace PassGen

/-- UTF-8 encoded byte length of one Unicode scalar value, as in Rust
`char::len_utf8`: 1 below U+0080, 2 below U+0800, 3 below U+10000, else 4. -/
def charSize (c : Char) : Nat :=
  if c.toNat < 128 then 1
  else if c.toNat < 2048 then 2
  else if c.toNat < 65536 then 3
  else 4

/-- Lower-casing of one character as Rust `str::to_lowercase` acts on the
ASCII range: `A`..`Z` maps to `a`..`z`, everything else in the ASCII range is
fixed.  Non-ASCII upper-case letters are not modelled (every general theorem
below restricts to ASCII secrets; the concrete non-ASCII inputs used in
counterexamples consist of characters that Rust lower-cases to themselves). -/
def lowerChar (c : Char) : Char :=
  if 65 ≤ c.toNat ∧ c.toNat ≤ 90 then Char.ofNat (c.toNat + 32) else c

/-- `String::to_lowercase` on the ASCII fragment: character-wise lowering. -/
def listLower (s : List Char) : List Char := s.map lowerChar

/-- Rust `str::len`: the number of UTF-8 bytes of the string. -/
def byteLen (s : List Char) : Nat := (s.map charSize).sum

/-- Split a string at byte offset `n`: `some (front, back)` when `n` is a
character boundary (including `n = 0` and `n` = total byte length), `none`
otherwise.  Models the boundary check Rust performs on `&s[n..]`. -/
def splitAtByte : List Char → Nat → Option (List Char × List Char)
  | s, 0 => some ([], s)
  | [], _ + 1 => none
  | c :: cs, n + 1 =>
    if n + 1 < charSize c then none
    else (splitAtByte cs (n + 1 - charSize c)).map (fun q => (c :: q.1, q.2))

/-- The Rust slice `&s[j..i]` (for `j ≤ i`): the characters between byte
offsets `j` and `i` when both are character boundaries, `none` (= panic)
otherwise. -/
def byteSlice (s : List Char) (j i : Nat) : Option (List Char) :=
  match splitAtByte s j with
  | none => none
  | some q =>
    match splitAtByte q.2 (i - j) with
    | none => none
    | some r => some r.1

/-- The inner loop of `Password::is_combination_of_word_set` at end position
`i`: scan the start positions in `js` in order; at the first `j` whose table
entry is true, slice `[j, i)` out of the password (a panic if `j` or `i` is
not a character boundary) and stop with `true` if the slice is a dictionary
word.  `t` is the table of already-computed entries `dp[0..i)`. -/
def innerScan (ws : List (List Char)) (p : List Char) (t : List Bool)
    (i : Nat) : List Nat → Except Unit Bool
  | [] => .ok false
  | j :: js =>
    if t.getD j false then
      match byteSlice p j i with
      | none => .error ()
      | some sub =>
        if sub ∈ ws then .ok true else innerScan ws p t i js
    else innerScan ws p t i js

/-- The dynamic-programming table of `is_combination_of_word_set`, built up
to end position `n` (byte offsets): `dp[0] = true`, and for `i` in `1..=n`,
`dp[i]` is set from a scan of `j` in `0..i`.  Result `[dp 0, …, dp n]`. -/
def dpTableB (ws : List (List Char)) (p : List Char) : Nat → Except Unit (List Bool)
  | 0 => .ok [true]
  | i + 1 =>
    match dpTableB ws p i with
    | .error e => .error e
    | .ok t =>
      match innerScan ws p t (i + 1) (List.range (i + 1)) with
      | .error e => .error e
      | .ok b => .ok (t ++ [b])

/-- `Password::is_combination_of_word_set` (checker.rs): lower-case the
password, run the word-break dynamic program over byte positions `0..=len`,
and return the entry at the full byte length.  `.error ()` models the panic
Rust raises when a byte index inside the loops is not a character boundary. -/
def Password.isCombinationOfWordSet (pw : List Char) (ws : List (List Char)) :
    Except Unit Bool :=
  let p := listLower pw
  match dpTableB ws p (byteLen p) with
  | .error e => .error e
  | .ok t => .ok (t.getD (byteLen p) false)

/-- `Password::is_safe` (checker.rs): an empty password is unsafe; a password
whose lower-casing is literally one of the corpus words is unsafe; a password
that is a combination of corpus words is unsafe; otherwise safe.  The corpus
list `ws` is used verbatim (the code builds a `HashSet` of the words without
normalising them). -/
def Password.isSafe (pw : List Char) (ws : List (List Char)) : Except Unit Bool :=
  if pw = [] then .ok false
  else if listLower pw ∈ ws then .ok false
  else
    match Password.isCombinationOfWordSet pw ws with
    | .error e => .error e
    | .ok b => .ok (!b)

/-! ### Character-level word-break (reference dynamic program)

The same dynamic program expressed over character positions.  On ASCII
inputs every byte offset is a character boundary and the byte-level program
computes exactly this table; correctness of segmentation is proved against
this version. -/

/-- The characters of `p` strictly between positions `j` and `i`. -/
def sliceCC (p : List Char) (j i : Nat) : List Char := (p.drop j).take (i - j)

/-- One row of the character-level table: is some `dp[j] ∧ p[j..i] ∈ ws`
with `j < i` true? -/
def dpRow (ws : List (List Char)) (p : List Char) (t : List Bool) (i : Nat) : Bool :=
  (List.range i).any (fun j => t.getD j false && decide (sliceCC p j i ∈ ws))

/-- The character-level table `[dp 0, …, dp n]`. -/
def dpTable (ws : List (List Char)) (p : List Char) : Nat → List Bool
  | 0 => [true]
  | i + 1 =>
    let t := dpTable ws p i
    t ++ [dpRow ws p t (i + 1)]

/-- Reachability of character position `i`: the prefix of length `i` splits
into dictionary words. -/
def wbr (ws : List (List Char)) (p : List Char) (i : Nat) : Bool :=
  (dpTable ws p i).getD i false

/-- Character-level word break: `p` splits completely into dictionary words. -/
def wordBreak (p : List Char) (ws : List (List Char)) : Bool :=
  wbr ws p p.length

/-! ### alphabet.rs -/

/-- The preset character string of `Alphabet::Full`. -/
def FULL : List Char :=
  "abcdefghijklmnopqrstuvwxyzABCDEFGHIJKLMNOPQRSTUVWXYZ0123456789!@#$%^&*()".toList

/-- The preset character string of `Alphabet::LowerCase`. -/
def LOWER_CASE : List Char := "abcdefghijklmnopqrstuvwxyz".toList

/-- The preset character string of `Alphabet::UpperCase`. -/
def UPPER_CASE : List Char := "ABCDEFGHIJKLMNOPQRSTUVWXYZ".toList

/-- The preset character string of `Alphabet::Digits`. -/
def DIGITS : List Char := "0123456789".toList

/-- The preset character string of `Alphabet::SpecialChars`. -/
def SPECIAL_CHARS : List Char := "!@#$%^&*".toList

/-- The `Alphabet` enum of alphabet.rs. -/
inductive Alphabet : Type
  | Full
  | LowerCase
  | UpperCase
  | Digits
  | SpecialChars
  | Custom (s : List Char)

/-- `Alphabet::as_str`: the underlying character string of each variant. -/
def Alphabet.asStr : Alphabet → List Char
  | .Full => FULL
  | .LowerCase => LOWER_CASE
  | .UpperCase => UPPER_CASE
  | .Digits => DIGITS
  | .SpecialChars => SPECIAL_CHARS
  | .Custom s => s

/-- `Alphabet::contains`: the character occurs in the underlying string. -/
def Alphabet.contains (a : Alphabet) (c : Char) : Prop := c ∈ a.asStr

instance (a : Alphabet) (c : Char) : Decidable (Alphabet.contains a c) :=
  inferInstanceAs (Decidable (c ∈ a.asStr))

/-- `Alphabet::len`: `str::len` of the underlying string, i.e. its UTF-8
byte count (not its character count). -/
def Alphabet.len (a : Alphabet) : Nat := byteLen a.asStr

/-! ### checker.rs: entropy and classification -/

/-- The `Classification` enum of checker.rs. -/
inductive Classification : Type
  | Weak
  | Medium
  | Strong
  | VeryStrong
deriving DecidableEq

/-- `Password::entropy` with the `f64` arithmetic idealised over the exact
reals: `0` when the length or the alphabet size is `0`, otherwise
`length * log2 (alphabet size)`.  (IEEE-754 rounding is not modelled; on
every input appearing in a theorem below the value is exact.) -/
noncomputable def Password.entropy (len alph : Nat) : ℝ :=
  if len = 0 ∨ alph = 0 then 0 else (len : ℝ) * Real.logb 2 (alph : ℝ)

/-- The threshold chain of `Password::classify`, rendered exactly: comparing
`len * log2 alph` with a threshold `T` is equivalent to comparing
`alph ^ len` with `2 ^ T` (proved as `entropy_lt_iff` below), which keeps the
classifier computable.  Boundaries are half-open: an entropy equal to a
threshold falls in the upper tier. -/
def classifyTier (len alph : Nat) : Classification :=
  if alph ^ len < 2 ^ 28 then .Weak
  else if alph ^ len < 2 ^ 40 then .Medium
  else if alph ^ len < 2 ^ 60 then .Strong
  else .VeryStrong

/-- `Password::classify`: reject (an `AlphabetMismatchError`, modelled as
`.error ()`) when some character of the secret is outside the alphabet;
otherwise classify by the entropy of (byte length of the secret, byte length
of the alphabet string). -/
def Password.classify (s : List Char) (a : Alphabet) : Except Unit Classification :=
  if ∀ c ∈ s, a.contains c then .ok (classifyTier (byteLen s) a.len)
  else .error ()

/-! ### wordlist.rs -/

/-- Rust `str::split('\t')`: the (always non-empty) list of tab-separated
fields, empty fields included. -/
def splitTab : List Char → List (List Char)
  | [] => [[]]
  | c :: cs =>
    match splitTab cs with
    | [] => [[c]]
    | f :: rest => if c = '\t' then [] :: f :: rest else (c :: f) :: rest

/-- `parse_eff_line` (wordlist.rs): `line.split('\t').nth(1)` — the second
tab-delimited field, or `none` when there is none. -/
def parseEffLine (l : List Char) : Option (List Char) := (splitTab l).get? 1

/-! ### commonwords.rs

The five backing corpora are `include_str!` resources that are not part of
src/, so their contents are unknown here.  Modelled from the spec: each named
corpus is a line-delimited static resource; its parsed line list is abstracted
as a parameter (a `CorpusSources` record), and every theorem about corpus
loading is proved for all contents.  The `OnceLock` caches are modelled by
explicit state passing of a `CorpusCaches` record, with `get_or_init`
semantics: a `none` field is computed and stored, a `some` field is returned
unchanged. -/

/-- The parsed line lists of the five static corpus resources. -/
structure CorpusSources (α : Type) : Type where
  passwords : List α
  english : List α
  maleNames : List α
  femaleNames : List α
  lastNames : List α

/-- The six `OnceLock` caches of commonwords.rs. -/
structure CorpusCaches (α : Type) : Type where
  passwords : Option (List α)
  english : Option (List α)
  maleNames : Option (List α)
  femaleNames : Option (List α)
  lastNames : Option (List α)
  comboAll : Option (List α)

/-- The process-start state: every cache empty. -/
def initCaches (α : Type) : CorpusCaches α :=
  ⟨none, none, none, none, none, none⟩

/-- `get_common_passwords`: return the cached list, computing and storing it
on first access. -/
def getCommonPasswords (src : CorpusSources α) (st : CorpusCaches α) :
    List α × CorpusCaches α :=
  match st.passwords with
  | some v => (v, st)
  | none => (src.passwords, { st with passwords := some src.passwords })

/-- `get_common_english`. -/
def getCommonEnglish (src : CorpusSources α) (st : CorpusCaches α) :
    List α × CorpusCaches α :=
  match st.english with
  | some v => (v, st)
  | none => (src.english, { st with english := some src.english })

/-- `get_common_male_names`. -/
def getCommonMaleNames (src : CorpusSources α) (st : CorpusCaches α) :
    List α × CorpusCaches α :=
  match st.maleNames with
  | some v => (v, st)
  | none => (src.maleNames, { st with maleNames := some src.maleNames })

/-- `get_common_female_names`. -/
def getCommonFemaleNames (src : CorpusSources α) (st : CorpusCaches α) :
    List α × CorpusCaches α :=
  match st.femaleNames with
  | some v => (v, st)
  | none => (src.femaleNames, { st with femaleNames := some src.femaleNames })

/-- `get_common_last_names`. -/
def getCommonLastNames (src : CorpusSources α) (st : CorpusCaches α) :
    List α × CorpusCaches α :=
  match st.lastNames with
  | some v => (v, st)
  | none => (src.lastNames, { st with lastNames := some src.lastNames })

/-- `get_common_all`: on first access, load the five corpora and store their
`HashSet` union.  The unordered hash-set collection is modelled as `dedup` of
the concatenation, which has the same element set and no duplicates. -/
def getCommonAll [DecidableEq α] (src : CorpusSources α) (st : CorpusCaches α) :
    List α × CorpusCaches α :=
  match st.comboAll with
  | some v => (v, st)
  | none =>
    let r1 := getCommonPasswords src st
    let r2 := getCommonEnglish src r1.2
    let r3 := getCommonMaleNames src r2.2
    let r4 := getCommonFemaleNames src r3.2
    let r5 := getCommonLastNames src r4.2
    let v := (r1.1 ++ r2.1 ++ r3.1 ++ r4.1 ++ r5.1).dedup
    (v, { r5.2 with comboAll := some v })

/-- The `CommonWords` enum of commonwords.rs. -/
inductive CommonWords (α : Type) : Type
  | Passwords
  | English
  | MaleNames
  | FemaleNames
  | LastNames
  | All
  | Custom (ws : List α)

/-- `CommonWords::words`: the word list of the named corpus (loading and
caching through the state), or the custom list verbatim. -/
def CommonWords.words [DecidableEq α] :
    CommonWords α → CorpusSources α → CorpusCaches α → List α × CorpusCaches α
  | .Passwords, src, st => getCommonPasswords src st
  | .English, src, st => getCommonEnglish src st
  | .MaleNames, src, st => getCommonMaleNames src st
  | .FemaleNames, src, st => getCommonFemaleNames src st
  | .LastNames, src, st => getCommonLastNames src st
  | .All, src, st => getCommonAll src st
  | .Custom ws, _, st => (ws, st)

/-! ### Concrete inputs used in the claims -/

/-- The demonstration dictionary apple / banana / cherry of the spec. -/
def demoDict : List (List Char) := [("apple".toList), ("banana".toList), ("cherry".toList)]

/-- A 16-character ASCII custom alphabet (byte length 16 = 2^4). -/
def alpha16 : Alphabet := Alphabet.Custom ("abcdefghijklmnop".toList)

/-- A 32-character ASCII custom alphabet (byte length 32 = 2^5). -/
def alpha32 : Alphabet := Alphabet.Custom ("abcdefghijklmnopqrstuvwxyzABCDEF".toList)

/-- A 64-character ASCII custom alphabet (byte length 64 = 2^6). -/
def alpha64 : Alphabet :=
  Alphabet.Custom ("abcdefghijklmnopqrstuvwxyzABCDEFGHIJKLMNOPQRSTUVWXYZ0123456789!@".toList)

/-- A custom alphabet of 16 distinct two-byte characters (U+00C0..U+00CF),
byte length 32. -/
def alphaWide : Alphabet := Alphabet.Custom ("ÀÁÂÃÄÅÆÇÈÉÊËÌÍÎÏ".toList)

/-- A secret of 7 two-byte characters drawn from `alphaWide` (14 bytes). -/
def wideSecret : List Char := "ÀÁÂÃÄÅÆ".toList

/-- A small concrete corpus source over Nat, for witnesses. -/
def srcNat : CorpusSources Nat := ⟨[1, 2], [2, 3], [3], [], [5]⟩

instance {ε α : Type} [DecidableEq ε] [DecidableEq α] : DecidableEq (Except ε α) :=
  fun x y =>
    match x, y with
    | .ok a, .ok b =>
      match decEq a b with
      | isTrue h => isTrue (by rw [h])
      | isFalse h => isFalse (fun hc => h (Except.ok.inj hc))
    | .error a, .error b =>
      match decEq a b with
      | isTrue h => isTrue (by rw [h])
      | isFalse h => isFalse (fun hc => h (Except.error.inj hc))
    | .ok _, .error _ => isFalse (fun hc => Except.noConfusion hc)
    | .error _, .ok _ => isFalse (fun hc => Except.noConfusion hc)

end PassGen

namespace PassGen

theorem toNat_charOfNat (n : Nat) (h : n.isValidChar) : (Char.ofNat n).toNat = n := by
  rw [Char.ofNat, dif_pos h]; rfl

theorem lowerChar_toNat (c : Char) :
    (lowerChar c).toNat =
      if 65 ≤ c.toNat ∧ c.toNat ≤ 90 then c.toNat + 32 else c.toNat := by
  rw [lowerChar]
  by_cases h : 65 ≤ c.toNat ∧ c.toNat ≤ 90
  · rw [if_pos h, if_pos h, toNat_charOfNat]
    exact Or.inl (by omega)
  · rw [if_neg h, if_neg h]

theorem lowerChar_ascii {c : Char} (h : c.toNat < 128) : (lowerChar c).toNat < 128 := by
  have := lowerChar_toNat c
  by_cases hc : 65 ≤ c.toNat ∧ c.toNat ≤ 90 <;> simp [hc] at this <;> omega

theorem lowerChar_idem (c : Char) : lowerChar (lowerChar c) = lowerChar c := by
  have h := lowerChar_toNat c
  by_cases hc : 65 ≤ c.toNat ∧ c.toNat ≤ 90
  · rw [if_pos hc] at h
    rw [lowerChar, if_neg (by omega)]
  · rw [if_neg hc] at h
    rw [lowerChar, h, if_neg hc]

theorem listLower_idem (s : List Char) : listLower (listLower s) = listLower s := by
  simp [listLower, Function.comp, lowerChar_idem]

theorem listLower_length (s : List Char) : (listLower s).length = s.length := by
  simp [listLower]

theorem listLower_ascii {s : List Char} (h : ∀ c ∈ s, c.toNat < 128) :
    ∀ c ∈ listLower s, c.toNat < 128 := by
  intro c hc
  rcases List.mem_map.1 hc with ⟨d, hd, rfl⟩
  exact lowerChar_ascii (h d hd)

theorem charSize_of_ascii {c : Char} (h : c.toNat < 128) : charSize c = 1 := by
  rw [charSize, if_pos h]

theorem byteLen_of_ascii {s : List Char} (h : ∀ c ∈ s, c.toNat < 128) :
    byteLen s = s.length := by
  induction s with
  | nil => rfl
  | cons c cs ih =>
    have h1 : charSize c = 1 := charSize_of_ascii (h c (List.mem_cons_self c cs))
    have h2 : byteLen cs = cs.length := ih (fun d hd => h d (List.mem_cons_of_mem c hd))
    simp only [byteLen, List.map_cons, List.sum_cons, List.length_cons]
    simp only [byteLen] at h2
    omega

end PassGen

namespace PassGen

theorem splitAtByte_of_ascii {s : List Char} (h : ∀ c ∈ s, c.toNat < 128) :
    ∀ n, n ≤ s.length → splitAtByte s n = some (s.take n, s.drop n) := by
  induction s with
  | nil =>
    intro n hn
    have hn0 : n = 0 := by simpa using hn
    subst hn0; rfl
  | cons c cs ih =>
    intro n hn
    cases n with
    | zero => rfl
    | succ m =>
      have hc : charSize c = 1 := charSize_of_ascii (h c (List.mem_cons_self c cs))
      have hm : m ≤ cs.length := by simpa using hn
      rw [splitAtByte, hc, if_neg (by omega)]
      have : m + 1 - 1 = m := by omega
      rw [this, ih (fun d hd => h d (List.mem_cons_of_mem c hd)) m hm]
      rfl

theorem byteSlice_of_ascii {s : List Char} (h : ∀ c ∈ s, c.toNat < 128)
    {j i : Nat} (hji : j ≤ i) (hi : i ≤ s.length) :
    byteSlice s j i = some (sliceCC s j i) := by
  have hdrop : ∀ c ∈ s.drop j, c.toNat < 128 :=
    fun c hc => h c (List.mem_of_mem_drop hc)
  have hlen : i - j ≤ (s.drop j).length := by
    rw [List.length_drop]; omega
  have step1 : byteSlice s j i =
      (match splitAtByte (s.drop j) (i - j) with
        | none => none
        | some r => some r.1) := by
    rw [byteSlice, splitAtByte_of_ascii h j (le_trans hji hi)]
  rw [step1, splitAtByte_of_ascii hdrop (i - j) hlen]
  rfl

theorem innerScan_of_ascii {ws : List (List Char)} {p : List Char}
    (h : ∀ c ∈ p, c.toNat < 128) (t : List Bool) {i : Nat} (hi : i ≤ p.length) :
    ∀ js : List Nat, (∀ j ∈ js, j < i) →
      innerScan ws p t i js =
        .ok (js.any (fun j => t.getD j false && decide (sliceCC p j i ∈ ws))) := by
  intro js
  induction js with
  | nil => intro _; rfl
  | cons j js ih =>
    intro hjs
    have hj : j < i := hjs j (List.mem_cons_self j js)
    have hrest := ih (fun k hk => hjs k (List.mem_cons_of_mem j hk))
    by_cases hd : t.getD j false
    · have step1 : innerScan ws p t i (j :: js) =
          (match byteSlice p j i with
            | none => .error ()
            | some sub =>
              if sub ∈ ws then .ok true else innerScan ws p t i js) := by
        rw [innerScan, if_pos hd]
      rw [step1, byteSlice_of_ascii h (le_of_lt hj) hi]
      by_cases hw : sliceCC p j i ∈ ws
      · show (if sliceCC p j i ∈ ws then (Except.ok true : Except Unit Bool)
          else innerScan ws p t i js) =
            Except.ok ((j :: js).any fun k => t.getD k false && decide (sliceCC p k i ∈ ws))
        rw [if_pos hw]
        simp only [List.any_cons, hd, hw, decide_True, Bool.true_and, Bool.true_or]
      · show (if sliceCC p j i ∈ ws then (Except.ok true : Except Unit Bool)
          else innerScan ws p t i js) =
            Except.ok ((j :: js).any fun k => t.getD k false && decide (sliceCC p k i ∈ ws))
        rw [if_neg hw, hrest]
        simp only [List.any_cons, hd, hw, decide_False, Bool.true_and, Bool.false_or]
    · rw [innerScan, if_neg hd, hrest]
      simp only [List.any_cons, hd, Bool.false_and, Bool.false_or]

theorem dpTableB_of_ascii {ws : List (List Char)} {p : List Char}
    (h : ∀ c ∈ p, c.toNat < 128) :
    ∀ i, i ≤ p.length → dpTableB ws p i = .ok (dpTable ws p i) := by
  intro i
  induction i with
  | zero => intro _; rfl
  | succ m ih =>
    intro hm
    have step1 : dpTableB ws p (m + 1) =
        (match innerScan ws p (dpTable ws p m) (m + 1) (List.range (m + 1)) with
          | .error e => .error e
          | .ok b => .ok (dpTable ws p m ++ [b])) := by
      rw [dpTableB, ih (by omega)]
    rw [step1, innerScan_of_ascii h (dpTable ws p m) hm (List.range (m + 1))
      (fun j hj => List.mem_range.1 hj)]
    rfl

theorem isCombination_of_ascii {pw : List Char} (h : ∀ c ∈ pw, c.toNat < 128)
    (ws : List (List Char)) :
    Password.isCombinationOfWordSet pw ws = .ok (wordBreak (listLower pw) ws) := by
  have hla : ∀ c ∈ listLower pw, c.toNat < 128 := listLower_ascii h
  have hbl : byteLen (listLower pw) = (listLower pw).length := byteLen_of_ascii hla
  rw [Password.isCombinationOfWordSet]
  simp only [hbl]
  rw [dpTableB_of_ascii hla (listLower pw).length le_rfl]
  rfl

end PassGen

namespace PassGen

theorem dpTable_length (ws : List (List Char)) (p : List Char) (i : Nat) :
    (dpTable ws p i).length = i + 1 := by
  induction i with
  | zero => rfl
  | succ m ih => simp [dpTable, ih]

theorem dpTable_getD_of_le (ws : List (List Char)) (p : List Char) :
    ∀ i j, j ≤ i → (dpTable ws p i).getD j false = wbr ws p j := by
  intro i
  induction i with
  | zero =>
    intro j hj
    have : j = 0 := by omega
    subst this; rfl
  | succ m ih =>
    intro j hj
    rcases Nat.lt_or_ge j (m + 1) with hlt | hge
    · have hlen : j < (dpTable ws p m).length := by rw [dpTable_length]; omega
      rw [dpTable, List.getD_append _ _ _ _ hlen, ih j (by omega)]
    · have hj1 : j = m + 1 := by omega
      subst hj1
      rfl

theorem wbr_zero (ws : List (List Char)) (p : List Char) : wbr ws p 0 = true := rfl

theorem wbr_succ_iff (ws : List (List Char)) (p : List Char) (i : Nat) :
    wbr ws p (i + 1) = true ↔
      ∃ j, j < i + 1 ∧ wbr ws p j = true ∧ sliceCC p j (i + 1) ∈ ws := by
  have hlen : (dpTable ws p i).length = i + 1 := dpTable_length ws p i
  have hstep : wbr ws p (i + 1) = dpRow ws p (dpTable ws p i) (i + 1) := by
    rw [wbr, dpTable, List.getD_append_right _ _ _ _ (by omega)]
    rw [hlen]
    simp
  rw [hstep, dpRow]
  simp only [List.any_eq_true, List.mem_range, Bool.and_eq_true, decide_eq_true_eq]
  constructor
  · rintro ⟨j, hj, hd, hw⟩
    exact ⟨j, hj, by rw [← dpTable_getD_of_le ws p i j (by omega)]; exact hd, hw⟩
  · rintro ⟨j, hj, hd, hw⟩
    exact ⟨j, hj, by rw [dpTable_getD_of_le ws p i j (by omega)]; exact hd, hw⟩

theorem wbr_sound (ws : List (List Char)) (p : List Char) :
    ∀ i, i ≤ p.length → wbr ws p i = true →
      ∃ parts : List (List Char),
        (∀ w ∈ parts, w ∈ ws ∧ w ≠ []) ∧ parts.flatten = p.take i := by
  intro i
  induction i using Nat.strong_induction_on with
  | _ i ih =>
    cases i with
    | zero => intro _ _; exact ⟨[], by simp, by simp⟩
    | succ m =>
      intro hle hw
      rcases (wbr_succ_iff ws p m).1 hw with ⟨j, hj, hwj, hmem⟩
      rcases ih j (by omega) (by omega) hwj with ⟨parts, hparts, hjoin⟩
      refine ⟨parts ++ [sliceCC p j (m + 1)], ?_, ?_⟩
      · intro w hw2
        rcases List.mem_append.1 hw2 with h1 | h1
        · exact hparts w h1
        · have : w = sliceCC p j (m + 1) := by simpa using h1
          subst this
          refine ⟨hmem, ?_⟩
          have : (sliceCC p j (m + 1)).length = m + 1 - j := by
            rw [sliceCC, List.length_take, List.length_drop]
            omega
          intro hnil
          rw [hnil] at this
          simp at this
          omega
      · rw [List.flatten_append, hjoin]
        simp only [List.flatten_cons, List.flatten_nil, List.append_nil]
        rw [sliceCC]
        have : m + 1 = j + (m + 1 - j) := by omega
        rw [this, List.take_add]
        have harith : j + (m + 1 - j) - j = m + 1 - j := by omega
        rw [harith]

theorem wbr_complete (ws : List (List Char)) (p : List Char) :
    ∀ (parts : List (List Char)) (rest : List Char),
      (∀ w ∈ parts, w ∈ ws ∧ w ≠ []) → parts.flatten ++ rest = p →
      wbr ws p parts.flatten.length = true := by
  intro parts
  induction parts using List.reverseRecOn with
  | nil => intro rest _ _; rfl
  | append_singleton ps w ih =>
    intro rest hmem hjoin
    have hw : w ∈ ws ∧ w ≠ [] := hmem w (by simp)
    have hwlen : 0 < w.length := by
      cases w with
      | nil => exact absurd rfl hw.2
      | cons a l => simp
    have hps : ps.flatten ++ (w ++ rest) = p := by
      rw [← hjoin, List.flatten_append]
      simp
    have hih := ih (w ++ rest) (fun v hv => hmem v (by simp [hv])) hps
    have hlen : (ps ++ [w]).flatten.length = ps.flatten.length + w.length := by
      rw [List.flatten_append]
      simp
    rw [hlen]
    have hsplit : ps.flatten.length + w.length = (ps.flatten.length + (w.length - 1)) + 1 := by
      omega
    rw [hsplit]
    apply (wbr_succ_iff ws p _).2
    refine ⟨ps.flatten.length, by omega, hih, ?_⟩
    have hslice : sliceCC p ps.flatten.length ((ps.flatten.length + (w.length - 1)) + 1) = w := by
      rw [sliceCC]
      have h1 : (ps.flatten.length + (w.length - 1)) + 1 - ps.flatten.length = w.length := by
        omega
      rw [h1, ← hps, List.drop_left, List.take_left' rfl]
    rw [hslice]
    exact hw.1

theorem flatten_filter_ne_nil (parts : List (List Char)) :
    (parts.filter (fun w => !w.isEmpty)).flatten = parts.flatten := by
  induction parts with
  | nil => rfl
  | cons w ps ih =>
    cases w with
    | nil => simpa [List.filter_cons] using ih
    | cons a l => simp [List.filter_cons, ih]

theorem wordBreak_iff (p : List Char) (ws : List (List Char)) :
    wordBreak p ws = true ↔
      ∃ parts : List (List Char), (∀ w ∈ parts, w ∈ ws) ∧ parts.flatten = p := by
  constructor
  · intro h
    rcases wbr_sound ws p p.length le_rfl h with ⟨parts, hmem, hjoin⟩
    exact ⟨parts, fun w hw => (hmem w hw).1, by rw [hjoin, List.take_length]⟩
  · rintro ⟨parts, hmem, hjoin⟩
    have hmem2 : ∀ w ∈ parts.filter (fun w => !w.isEmpty), w ∈ ws ∧ w ≠ [] := by
      intro w hw
      have h1 := List.mem_of_mem_filter hw
      have h2 := List.of_mem_filter hw
      refine ⟨hmem w h1, ?_⟩
      simpa [List.isEmpty_iff] using h2
    have hjoin2 : (parts.filter (fun w => !w.isEmpty)).flatten ++ [] = p := by
      rw [flatten_filter_ne_nil, List.append_nil, hjoin]
    have := wbr_complete ws p (parts.filter (fun w => !w.isEmpty)) [] hmem2 hjoin2
    rw [flatten_filter_ne_nil, hjoin] at this
    exact this

end PassGen

namespace PassGen

theorem isSafe_of_ascii {pw : List Char} (h : ∀ c ∈ pw, c.toNat < 128)
    (ws : List (List Char)) :
    Password.isSafe pw ws =
      .ok (if pw = [] then false else !(wordBreak (listLower pw) ws)) := by
  by_cases hnil : pw = []
  · subst hnil; rfl
  · rw [Password.isSafe, if_neg hnil]
    rw [if_neg hnil]
    by_cases hmem : listLower pw ∈ ws
    · rw [if_pos hmem]
      have hwb : wordBreak (listLower pw) ws = true :=
        (wordBreak_iff _ _).2 ⟨[listLower pw], by simp [hmem], by simp⟩
      rw [hwb]
      rfl
    · rw [if_neg hmem, isCombination_of_ascii h ws]

theorem entropy_lt_iff (L A T : Nat) (hT : 0 < T) :
    Password.entropy L A < (T : ℝ) ↔ A ^ L < 2 ^ T := by
  rcases Nat.eq_zero_or_pos L with hL | hL
  · subst hL
    rw [Password.entropy, if_pos (Or.inl rfl)]
    rw [pow_zero]
    constructor
    · intro _
      exact Nat.one_lt_two_pow_iff.2 (by omega)
    · intro _
      exact_mod_cast hT
  rcases Nat.eq_zero_or_pos A with hA | hA
  · subst hA
    rw [Password.entropy, if_pos (Or.inr rfl)]
    rw [Nat.zero_pow hL]
    constructor
    · intro _
      exact Nat.pos_pow_of_pos T (by omega)
    · intro _
      exact_mod_cast hT
  rcases Nat.lt_or_ge A 2 with hA1 | hA2
  · have : A = 1 := by omega
    subst this
    rw [Password.entropy, if_neg (by omega), Nat.cast_one, Real.logb_one, mul_zero]
    rw [one_pow]
    constructor
    · intro _
      exact Nat.one_lt_two_pow_iff.2 (by omega)
    · intro _
      exact_mod_cast hT
  · rw [Password.entropy, if_neg (by omega)]
    have hcast : (L : ℝ) * Real.logb 2 (A : ℝ) = Real.logb 2 ((A : ℝ) ^ L) := by
      rw [Real.logb_pow]
    rw [hcast]
    have hApos : (0 : ℝ) < (A : ℝ) ^ L := by
      positivity
    rw [Real.logb_lt_iff_lt_rpow (by norm_num) hApos]
    rw [Real.rpow_natCast]
    constructor
    · intro hlt
      exact_mod_cast hlt
    · intro hlt
      exact_mod_cast hlt

theorem le_entropy_iff (L A T : Nat) (hT : 0 < T) :
    (T : ℝ) ≤ Password.entropy L A ↔ 2 ^ T ≤ A ^ L := by
  rw [← not_lt, ← Nat.not_lt]
  exact not_congr (entropy_lt_iff L A T hT)

theorem classifyTier_cases (L A : Nat) :
    (classifyTier L A = .Weak ↔ A ^ L < 2 ^ 28) ∧
    (classifyTier L A = .Medium ↔ 2 ^ 28 ≤ A ^ L ∧ A ^ L < 2 ^ 40) ∧
    (classifyTier L A = .Strong ↔ 2 ^ 40 ≤ A ^ L ∧ A ^ L < 2 ^ 60) ∧
    (classifyTier L A = .VeryStrong ↔ 2 ^ 60 ≤ A ^ L) := by
  have e28 : (2 : ℕ) ^ 28 = 268435456 := by norm_num
  have e40 : (2 : ℕ) ^ 40 = 1099511627776 := by norm_num
  have e60 : (2 : ℕ) ^ 60 = 1152921504606846976 := by norm_num
  unfold classifyTier
  by_cases c1 : A ^ L < 2 ^ 28
  · rw [if_pos c1]
    refine ⟨by simp; omega, ?_, ?_, ?_⟩ <;> simp <;> omega
  · rw [if_neg c1]
    by_cases c2 : A ^ L < 2 ^ 40
    · rw [if_pos c2]
      refine ⟨by simp; omega, by simp; omega, ?_, ?_⟩ <;> simp <;> omega
    · rw [if_neg c2]
      by_cases c3 : A ^ L < 2 ^ 60
      · rw [if_pos c3]
        refine ⟨by simp; omega, by simp; omega, by simp; omega, by simp; omega⟩
      · rw [if_neg c3]
        refine ⟨by simp; omega, by simp; omega, by simp; omega, by simp; omega⟩

end PassGen

namespace PassGen

theorem entropy_two_pow (L k : Nat) (hL : L ≠ 0) :
    Password.entropy L (2 ^ k) = (L : ℝ) * (k : ℝ) := by
  rw [Password.entropy, if_neg (by push_neg; exact ⟨hL, by positivity⟩)]
  have hcast : ((2 ^ k : ℕ) : ℝ) = (2 : ℝ) ^ k := by push_cast; ring
  rw [hcast, Real.logb_pow, Real.logb_self_eq_one (by norm_num), mul_one]

theorem splitTab_ne_nil (l : List Char) : splitTab l ≠ [] := by
  cases l with
  | nil => simp [splitTab]
  | cons c cs =>
    rw [splitTab]
    cases h : splitTab cs with
    | nil => simp
    | cons f rest =>
      show (if c = '\t' then [] :: f :: rest else (c :: f) :: rest) ≠ []
      by_cases hc : c = '\t' <;> simp [hc]

theorem splitTab_no_tab {l : List Char} (h : '\t' ∉ l) : splitTab l = [l] := by
  induction l with
  | nil => rfl
  | cons c cs ih =>
    have hc : c ≠ '\t' := fun hc => h (hc ▸ List.mem_cons_self c cs)
    have hcs : '\t' ∉ cs := fun hcs => h (List.mem_cons_of_mem c hcs)
    rw [splitTab, ih hcs]
    simp [hc]

theorem splitTab_append {a : List Char} (r : List Char) (h : '\t' ∉ a) :
    splitTab (a ++ '\t' :: r) = a :: splitTab r := by
  induction a with
  | nil =>
    rw [List.nil_append, splitTab]
    cases hS : splitTab r with
    | nil => exact absurd hS (splitTab_ne_nil r)
    | cons f rest => simp
  | cons c a ih =>
    have hc : c ≠ '\t' := fun hc => h (hc ▸ List.mem_cons_self c a)
    have ha : '\t' ∉ a := fun ha => h (List.mem_cons_of_mem c ha)
    rw [List.cons_append, splitTab, ih ha]
    simp [hc]

theorem getCommonPasswords_idem (src : CorpusSources α) (st : CorpusCaches α) :
    (getCommonPasswords src (getCommonPasswords src st).2).1 =
      (getCommonPasswords src st).1 := by
  rw [getCommonPasswords]
  cases h : st.passwords with
  | some v => simp [getCommonPasswords, h]
  | none => simp [getCommonPasswords, h]

theorem getCommonEnglish_idem (src : CorpusSources α) (st : CorpusCaches α) :
    (getCommonEnglish src (getCommonEnglish src st).2).1 =
      (getCommonEnglish src st).1 := by
  rw [getCommonEnglish]
  cases h : st.english with
  | some v => simp [getCommonEnglish, h]
  | none => simp [getCommonEnglish, h]

theorem getCommonMaleNames_idem (src : CorpusSources α) (st : CorpusCaches α) :
    (getCommonMaleNames src (getCommonMaleNames src st).2).1 =
      (getCommonMaleNames src st).1 := by
  rw [getCommonMaleNames]
  cases h : st.maleNames with
  | some v => simp [getCommonMaleNames, h]
  | none => simp [getCommonMaleNames, h]

theorem getCommonFemaleNames_idem (src : CorpusSources α) (st : CorpusCaches α) :
    (getCommonFemaleNames src (getCommonFemaleNames src st).2).1 =
      (getCommonFemaleNames src st).1 := by
  rw [getCommonFemaleNames]
  cases h : st.femaleNames with
  | some v => simp [getCommonFemaleNames, h]
  | none => simp [getCommonFemaleNames, h]

theorem getCommonLastNames_idem (src : CorpusSources α) (st : CorpusCaches α) :
    (getCommonLastNames src (getCommonLastNames src st).2).1 =
      (getCommonLastNames src st).1 := by
  rw [getCommonLastNames]
  cases h : st.lastNames with
  | some v => simp [getCommonLastNames, h]
  | none => simp [getCommonLastNames, h]

theorem getCommonAll_idem [DecidableEq α] (src : CorpusSources α) (st : CorpusCaches α) :
    (getCommonAll src (getCommonAll src st).2).1 = (getCommonAll src st).1 := by
  rw [getCommonAll]
  cases h : st.comboAll with
  | some v => simp [getCommonAll, h]
  | none => simp [getCommonAll, h]

theorem words_idem [DecidableEq α] (c : CommonWords α) (src : CorpusSources α)
    (st : CorpusCaches α) :
    (CommonWords.words c src (CommonWords.words c src st).2).1 =
      (CommonWords.words c src st).1 := by
  cases c with
  | Passwords => exact getCommonPasswords_idem src st
  | English => exact getCommonEnglish_idem src st
  | MaleNames => exact getCommonMaleNames_idem src st
  | FemaleNames => exact getCommonFemaleNames_idem src st
  | LastNames => exact getCommonLastNames_idem src st
  | All => exact getCommonAll_idem src st
  | Custom ws => rfl

theorem words_all_init [DecidableEq α] (src : CorpusSources α) :
    (CommonWords.words .All src (initCaches α)).1 =
      (src.passwords ++ src.english ++ src.maleNames ++ src.femaleNames ++
        src.lastNames).dedup := by
  rfl

end PassGen

namespace PassGen

/-- Claim C1 (counterexample): as universally quantified the claim fails — for
the secret consisting of the single two-byte character é and the dictionary
containing exactly that word, the lower-cased secret is a concatenation of
dictionary words, yet the checker does not return true: it panics on the
byte index 1, which is not a character boundary. -/
theorem c1_segmentation_cex :
    ¬ (Password.isCombinationOfWordSet ['é'] [['é']] = .ok true ↔
        ∃ parts : List (List Char), (∀ w ∈ parts, w ∈ [['é']]) ∧
          parts.flatten = listLower ['é']) := by
  intro h
  have h2 : Password.isCombinationOfWordSet ['é'] [['é']] = .ok true :=
    h.mpr ⟨[['é']], by simp, by decide⟩
  exact absurd h2 (by decide)

/-- Claim C1 (amended): for every secret whose characters are ASCII
(single-byte), the segmentation checker returns true iff the lower-cased
secret is a concatenation of zero or more dictionary words; the spec's
concrete examples over the dictionary apple / banana / cherry hold. -/
theorem c1_segmentation :
    (∀ (s : List Char) (ws : List (List Char)), (∀ c ∈ s, c.toNat < 128) →
      (Password.isCombinationOfWordSet s ws = .ok true ↔
        ∃ parts : List (List Char), (∀ w ∈ parts, w ∈ ws) ∧
          parts.flatten = listLower s)) ∧
    Password.isCombinationOfWordSet ("applebanana".toList) demoDict = .ok true ∧
    Password.isCombinationOfWordSet ("banana".toList) demoDict = .ok true ∧
    Password.isCombinationOfWordSet ("applebananaapplecherry".toList) demoDict = .ok true ∧
    Password.isCombinationOfWordSet ("APPLEbanana".toList) demoDict = .ok true ∧
    Password.isCombinationOfWordSet ("appleorange".toList) demoDict = .ok false ∧
    Password.isCombinationOfWordSet ("applebananaorange".toList) demoDict = .ok false := by
  refine ⟨?_, by decide, by decide, by decide, by decide, by decide, by decide⟩
  intro s ws h
  rw [isCombination_of_ascii h ws]
  simp only [Except.ok.injEq]
  exact wordBreak_iff (listLower s) ws

/-- Claim C1 witness: the amended theorem applied to a concrete ASCII input. -/
theorem c1_segmentation_witness :
    Password.isCombinationOfWordSet ("ab".toList) [("ab".toList)] = .ok true ↔
      ∃ parts : List (List Char), (∀ w ∈ parts, w ∈ [("ab".toList)]) ∧
        parts.flatten = listLower ("ab".toList) :=
  c1_segmentation.1 ("ab".toList) [("ab".toList)] (by decide)

/-- Claim C5: evaluation at the failing input — for the secret é (a single
two-byte character) and the empty corpus, is_safe does not return a boolean:
the word-break loop slices the lower-cased secret at byte index 1, inside the
character, and the Rust code panics (modelled as `.error ()`). -/
theorem c5_safe_panics :
    Password.isSafe ['é'] [] = .error () := by decide

/-- Claim C6: the entropy of a secret of length `L` over an alphabet of size
`A` is `0` when `L = 0` or `A = 0`, and `L * log2 A` otherwise (the `f64`
arithmetic idealised over the exact reals). -/
theorem c6_entropy :
    ∀ L A : Nat,
      ((L = 0 ∨ A = 0) → Password.entropy L A = 0) ∧
      (L ≠ 0 → A ≠ 0 → Password.entropy L A = (L : ℝ) * Real.logb 2 (A : ℝ)) := by
  intro L A
  constructor
  · intro h
    rw [Password.entropy, if_pos h]
  · intro h1 h2
    rw [Password.entropy, if_neg (by tauto)]

/-- Claim C6 witness. -/
theorem c6_entropy_witness :
    Password.entropy 0 5 = 0 ∧
    Password.entropy 3 8 = ((3 : ℕ) : ℝ) * Real.logb 2 ((8 : ℕ) : ℝ) :=
  ⟨(c6_entropy 0 5).1 (Or.inl rfl), (c6_entropy 3 8).2 (by norm_num) (by norm_num)⟩

/-- Claim C7 (counterexample): alphabet size is not the count of Unicode
scalar values — the custom alphabet consisting of the single character é has
one scalar value but `Alphabet::len` returns 2 (its UTF-8 byte count). -/
theorem c7_alpha_size_cex :
    Alphabet.len (Alphabet.Custom ['é']) = 2 ∧
    (Alphabet.asStr (Alphabet.Custom ['é'])).length = 1 ∧
    Alphabet.len (Alphabet.Custom ['é']) ≠ (Alphabet.asStr (Alphabet.Custom ['é'])).length :=
  ⟨by decide, by decide, by decide⟩

/-- Claim C7 (amended): `size(alphabet)` is the UTF-8 byte count of the
underlying string, without deduplication; it agrees with the scalar-value
count exactly on ASCII strings (in particular on every preset), and the
all-repeated custom alphabet aaaa has size 4. -/
theorem c7_alpha_size :
    (∀ a : Alphabet, a.len = byteLen a.asStr) ∧
    (∀ a : Alphabet, (∀ c ∈ a.asStr, c.toNat < 128) → a.len = a.asStr.length) ∧
    Alphabet.len (Alphabet.Custom ("aaaa".toList)) = 4 := by
  refine ⟨fun a => rfl, ?_, by decide⟩
  intro a h
  rw [Alphabet.len, byteLen_of_ascii h]

/-- Claim C7 witness. -/
theorem c7_alpha_size_witness :
    Alphabet.len Alphabet.LowerCase = (Alphabet.asStr Alphabet.LowerCase).length :=
  c7_alpha_size.2.1 Alphabet.LowerCase (by decide)

/-- Claim C8: the wordlist line parser yields the second tab-delimited field
(`nth(1)` of a tab split): a line with no tab yields no word; a line with
more than two fields still yields the second; the line consisting of a single
tab yields the empty word. -/
theorem c8_parse_eff :
    (∀ l : List Char, parseEffLine l = (splitTab l).get? 1) ∧
    (∀ l : List Char, '\t' ∉ l → parseEffLine l = none) ∧
    (∀ a b r : List Char, '\t' ∉ a → '\t' ∉ b →
      parseEffLine (a ++ '\t' :: (b ++ '\t' :: r)) = some b) ∧
    (∀ a b : List Char, '\t' ∉ a → '\t' ∉ b →
      parseEffLine (a ++ '\t' :: b) = some b) ∧
    parseEffLine ['\t'] = some [] := by
  refine ⟨fun l => rfl, ?_, ?_, ?_, by decide⟩
  · intro l h
    rw [parseEffLine, splitTab_no_tab h]
    rfl
  · intro a b r ha hb
    rw [parseEffLine, splitTab_append _ ha, splitTab_append _ hb]
    rfl
  · intro a b ha hb
    rw [parseEffLine, splitTab_append _ ha, splitTab_no_tab hb]
    rfl

/-- Claim C8 witness: the three-field EFF line yields its second field. -/
theorem c8_parse_eff_witness :
    parseEffLine (("11111".toList) ++ '\t' :: (("abacus".toList) ++ '\t' :: ("extra".toList))) =
      some ("abacus".toList) :=
  c8_parse_eff.2.2.1 ("11111".toList) ("abacus".toList) ("extra".toList)
    (by decide) (by decide)

end PassGen

namespace PassGen

/-- Claim C2: classification fails iff some character of the secret is
outside the alphabet (so the empty secret never fails and the empty custom
alphabet rejects every non-empty secret); otherwise the returned tier is
determined by the half-open entropy thresholds 28, 40, 60, with each
boundary value in the upper tier (witnessed at entropies exactly 28, 40
and 60). -/
theorem c2_classify :
    (∀ (s : List Char) (a : Alphabet),
      Password.classify s a = .error () ↔ ∃ c ∈ s, ¬ a.contains c) ∧
    (∀ (s : List Char) (a : Alphabet), (∀ c ∈ s, a.contains c) →
      ∃ t, Password.classify s a = .ok t ∧
        (t = .Weak ↔ Password.entropy (byteLen s) a.len < 28) ∧
        (t = .Medium ↔ 28 ≤ Password.entropy (byteLen s) a.len ∧
          Password.entropy (byteLen s) a.len < 40) ∧
        (t = .Strong ↔ 40 ≤ Password.entropy (byteLen s) a.len ∧
          Password.entropy (byteLen s) a.len < 60) ∧
        (t = .VeryStrong ↔ 60 ≤ Password.entropy (byteLen s) a.len)) ∧
    (∀ a : Alphabet, Password.classify [] a = .ok .Weak) ∧
    (∀ s : List Char, s ≠ [] → Password.classify s (.Custom []) = .error ()) ∧
    (Password.classify ("abcdefg".toList) alpha16 = .ok .Medium ∧
      Password.entropy 7 16 = 28) ∧
    (Password.classify ("abcdefgh".toList) alpha32 = .ok .Strong ∧
      Password.entropy 8 32 = 40) ∧
    (Password.classify ("abcdefghij".toList) alpha64 = .ok .VeryStrong ∧
      Password.entropy 10 64 = 60) := by
  refine ⟨?_, ?_, ?_, ?_, ⟨by decide, ?_⟩, ⟨by decide, ?_⟩, ⟨by decide, ?_⟩⟩
  · intro s a
    rw [Password.classify]
    by_cases hall : ∀ c ∈ s, a.contains c
    · rw [if_pos hall]
      constructor
      · intro h
        exact absurd h (by simp)
      · rintro ⟨c, hc, hnc⟩
        exact absurd (hall c hc) hnc
    · rw [if_neg hall]
      push_neg at hall
      exact iff_of_true rfl hall
  · intro s a h
    refine ⟨classifyTier (byteLen s) a.len, ?_, ?_, ?_, ?_, ?_⟩
    · rw [Password.classify, if_pos h]
    all_goals {
      obtain ⟨hW, hM, hS, hV⟩ := classifyTier_cases (byteLen s) a.len
      have c28 : (((28 : ℕ) : ℝ)) = (28 : ℝ) := by norm_num
      have c40 : (((40 : ℕ) : ℝ)) = (40 : ℝ) := by norm_num
      have c60 : (((60 : ℕ) : ℝ)) = (60 : ℝ) := by norm_num
      have hlt28 := c28 ▸ entropy_lt_iff (byteLen s) a.len 28 (by norm_num)
      have hlt40 := c40 ▸ entropy_lt_iff (byteLen s) a.len 40 (by norm_num)
      have hlt60 := c60 ▸ entropy_lt_iff (byteLen s) a.len 60 (by norm_num)
      have hle28 := c28 ▸ le_entropy_iff (byteLen s) a.len 28 (by norm_num)
      have hle40 := c40 ▸ le_entropy_iff (byteLen s) a.len 40 (by norm_num)
      have hle60 := c60 ▸ le_entropy_iff (byteLen s) a.len 60 (by norm_num)
      first
      | exact hW.trans hlt28.symm
      | exact hM.trans (and_congr hle28.symm hlt40.symm)
      | exact hS.trans (and_congr hle40.symm hlt60.symm)
      | exact hV.trans hle60.symm
    }
  · intro a
    rw [Password.classify, if_pos (by simp)]
    have hb : byteLen ([] : List Char) = 0 := rfl
    rw [hb]
    have h1 : a.len ^ 0 < 2 ^ 28 := by
      rw [pow_zero]
      norm_num
    rw [classifyTier, if_pos h1]
  · intro s hs
    rw [Password.classify, if_neg]
    intro hall
    cases s with
    | nil => exact hs rfl
    | cons c cs =>
      have := hall c (List.mem_cons_self c cs)
      simp [Alphabet.contains, Alphabet.asStr] at this
  · rw [show (16 : ℕ) = 2 ^ 4 by norm_num, entropy_two_pow 7 4 (by norm_num)]
    norm_num
  · rw [show (32 : ℕ) = 2 ^ 5 by norm_num, entropy_two_pow 8 5 (by norm_num)]
    norm_num
  · rw [show (64 : ℕ) = 2 ^ 6 by norm_num, entropy_two_pow 10 6 (by norm_num)]
    norm_num

/-- Claim C2 witness: the tier characterisation applied to a concrete
accepted secret, and the empty-custom-alphabet rejection applied to a
concrete non-empty secret. -/
theorem c2_classify_witness :
    (∃ t, Password.classify ("abc".toList) Alphabet.LowerCase = .ok t ∧
      (t = .Weak ↔ Password.entropy (byteLen ("abc".toList)) Alphabet.LowerCase.len < 28) ∧
      (t = .Medium ↔ 28 ≤ Password.entropy (byteLen ("abc".toList)) Alphabet.LowerCase.len ∧
        Password.entropy (byteLen ("abc".toList)) Alphabet.LowerCase.len < 40) ∧
      (t = .Strong ↔ 40 ≤ Password.entropy (byteLen ("abc".toList)) Alphabet.LowerCase.len ∧
        Password.entropy (byteLen ("abc".toList)) Alphabet.LowerCase.len < 60) ∧
      (t = .VeryStrong ↔ 60 ≤ Password.entropy (byteLen ("abc".toList)) Alphabet.LowerCase.len)) ∧
    Password.classify ("a".toList) (Alphabet.Custom []) = .error () :=
  ⟨c2_classify.2.1 ("abc".toList) Alphabet.LowerCase (by decide),
   c2_classify.2.2.2.1 ("a".toList) (by decide)⟩

end PassGen

namespace PassGen

/-- Claim C3 (counterexample): as universally quantified the claim fails —
for the secret café (whose lower-casing contains the two-byte character é)
and the lowercase corpus containing password, the claim requires the verdict
true, but is_safe does not return: its word-break loop panics on a byte index
inside é. -/
theorem c3_safety_cex :
    Password.isSafe ("café".toList) [("password".toList)] ≠ .ok true ∧
    Password.isSafe ("café".toList) [("password".toList)] = .error () :=
  ⟨by decide, by decide⟩

/-- Claim C3 (amended): for every ASCII secret, is_safe returns true iff the
secret is non-empty and its lower-casing is not a concatenation of corpus
entries (the empty secret, an exact corpus match, and a full decomposition
are exactly the unsafe cases); containing a corpus word as a proper substring
is safe (mypassword vs password), and every non-empty ASCII secret is safe
against the empty corpus. -/
theorem c3_safety :
    (∀ (s : List Char) (ws : List (List Char)), (∀ c ∈ s, c.toNat < 128) →
      (Password.isSafe s ws = .ok true ↔
        s ≠ [] ∧ ¬ ∃ parts : List (List Char), (∀ w ∈ parts, w ∈ ws) ∧
          parts.flatten = listLower s)) ∧
    Password.isSafe ("mypassword".toList) [("password".toList)] = .ok true ∧
    Password.isSafe ("marylisa".toList) [("mary".toList), ("lisa".toList)] = .ok false ∧
    (∀ s : List Char, s ≠ [] → (∀ c ∈ s, c.toNat < 128) →
      Password.isSafe s [] = .ok true) := by
  have hmain : ∀ (s : List Char) (ws : List (List Char)), (∀ c ∈ s, c.toNat < 128) →
      (Password.isSafe s ws = .ok true ↔
        s ≠ [] ∧ ¬ ∃ parts : List (List Char), (∀ w ∈ parts, w ∈ ws) ∧
          parts.flatten = listLower s) := by
    intro s ws h
    rw [isSafe_of_ascii h ws]
    by_cases hnil : s = []
    · subst hnil
      simp
    · rw [if_neg hnil]
      simp only [Except.ok.injEq, Bool.not_eq_true', ne_eq, hnil, not_false_iff, true_and]
      rw [Bool.eq_false_iff]
      exact not_congr (wordBreak_iff (listLower s) ws)
  refine ⟨hmain, by decide, by decide, ?_⟩
  intro s hs h
  rw [hmain s [] h]
  refine ⟨hs, ?_⟩
  rintro ⟨parts, hmem, hjoin⟩
  cases parts with
  | nil =>
    have hlen : s.length = 0 := by
      rw [← listLower_length s, ← hjoin]
      rfl
    exact hs (List.length_eq_zero.1 hlen)
  | cons w ps =>
    exact absurd (hmem w (List.mem_cons_self w ps)) (List.not_mem_nil w)

/-- Claim C3 witness: the amended characterisation applied to a concrete
ASCII secret. -/
theorem c3_safety_witness :
    Password.isSafe ("zzz".toList) demoDict = .ok true ↔
      ("zzz".toList ≠ [] ∧ ¬ ∃ parts : List (List Char),
        (∀ w ∈ parts, w ∈ demoDict) ∧ parts.flatten = listLower ("zzz".toList)) :=
  c3_safety.1 ("zzz".toList) demoDict (by decide)

/-- Claim C4 (counterexample): is_safe does not lower-case the corpus — for
the custom corpus containing Mary, the claim reports both mary and MARY
unsafe, but the code returns safe for both (the lower-cased secret mary never
matches the stored entry Mary). -/
theorem c4_corpus_case_cex :
    Password.isSafe ("mary".toList) [("Mary".toList)] = .ok true ∧
    Password.isSafe ("MARY".toList) [("Mary".toList)] = .ok true :=
  ⟨by decide, by decide⟩

/-- Claim C4 (amended): is_safe lower-cases only the secret — its verdict
depends on the secret only through its lower-casing — while corpus entries
are used verbatim: an upper-case secret matches a lowercase entry (MARY vs
mary is unsafe), but a corpus entry with upper-case letters is never matched
(mary vs MARY is safe). -/
theorem c4_corpus_case :
    (∀ (s : List Char) (ws : List (List Char)),
      Password.isSafe s ws = Password.isSafe (listLower s) ws) ∧
    Password.isSafe ("MARY".toList) [("mary".toList)] = .ok false ∧
    Password.isSafe ("mary".toList) [("MARY".toList)] = .ok true := by
  refine ⟨?_, by decide, by decide⟩
  intro s ws
  by_cases hnil : s = []
  · subst hnil
    rfl
  · have hni : listLower s ≠ [] := by
      intro h0
      apply hnil
      have hlen := listLower_length s
      rw [h0] at hlen
      exact List.length_eq_zero.1 hlen.symm
    rw [Password.isSafe, Password.isSafe, if_neg hnil, if_neg hni, listLower_idem]
    have hcomb : Password.isCombinationOfWordSet (listLower s) ws =
        Password.isCombinationOfWordSet s ws := by
      rw [Password.isCombinationOfWordSet, Password.isCombinationOfWordSet, listLower_idem]
    rw [hcomb]

/-- Claim C9: repeated corpus loads return the same content from any cache
state, and the All corpus is the deduplicated union of the five named
corpora, for every possible resource contents. -/
theorem c9_corpus {α : Type} [DecidableEq α] (src : CorpusSources α) :
    (∀ (c : CommonWords α) (st : CorpusCaches α),
      (CommonWords.words c src (CommonWords.words c src st).2).1 =
        (CommonWords.words c src st).1) ∧
    ((CommonWords.words .All src (initCaches α)).1.Nodup ∧
      ∀ w : α, w ∈ (CommonWords.words .All src (initCaches α)).1 ↔
        (w ∈ (CommonWords.words .Passwords src (initCaches α)).1 ∨
         w ∈ (CommonWords.words .English src (initCaches α)).1 ∨
         w ∈ (CommonWords.words .MaleNames src (initCaches α)).1 ∨
         w ∈ (CommonWords.words .FemaleNames src (initCaches α)).1 ∨
         w ∈ (CommonWords.words .LastNames src (initCaches α)).1)) := by
  refine ⟨fun c st => words_idem c src st, ?_, ?_⟩
  · rw [words_all_init]
    exact List.nodup_dedup _
  · intro w
    rw [words_all_init]
    have hP : (CommonWords.words .Passwords src (initCaches α)).1 = src.passwords := rfl
    have hE : (CommonWords.words .English src (initCaches α)).1 = src.english := rfl
    have hM : (CommonWords.words .MaleNames src (initCaches α)).1 = src.maleNames := rfl
    have hF : (CommonWords.words .FemaleNames src (initCaches α)).1 = src.femaleNames := rfl
    have hL : (CommonWords.words .LastNames src (initCaches α)).1 = src.lastNames := rfl
    rw [hP, hE, hM, hF, hL, List.mem_dedup]
    simp [or_assoc]

/-- Claim C9 witness: idempotence and dedup applied to a concrete corpus. -/
theorem c9_corpus_witness :
    (CommonWords.words .Passwords srcNat
        (CommonWords.words .Passwords srcNat (initCaches Nat)).2).1 =
      (CommonWords.words .Passwords srcNat (initCaches Nat)).1 ∧
    (CommonWords.words .All srcNat (initCaches Nat)).1.Nodup :=
  ⟨(c9_corpus srcNat).1 .Passwords (initCaches Nat), (c9_corpus srcNat).2.1⟩

/-- Claim C10: classification measures both the secret and the alphabet in
UTF-8 bytes — `classify` returns the tier of (byte length of the secret,
byte length of the alphabet string); for the 16-character alphabet of
two-byte characters and a 7-character secret drawn from it, the byte-based
entropy is 70 (VeryStrong), while the character-count interpretation would
give entropy 28 (Medium). -/
theorem c10_length_bytes :
    (∀ (s : List Char) (a : Alphabet), (∀ c ∈ s, a.contains c) →
      Password.classify s a = .ok (classifyTier (byteLen s) (byteLen a.asStr))) ∧
    Password.classify wideSecret alphaWide = .ok .VeryStrong ∧
    byteLen wideSecret = 14 ∧ wideSecret.length = 7 ∧
    byteLen (Alphabet.asStr alphaWide) = 32 ∧ (Alphabet.asStr alphaWide).length = 16 ∧
    Password.entropy (byteLen wideSecret) (byteLen (Alphabet.asStr alphaWide)) = 70 ∧
    Password.entropy wideSecret.length (Alphabet.asStr alphaWide).length = 28 ∧
    classifyTier wideSecret.length (Alphabet.asStr alphaWide).length = .Medium := by
  refine ⟨?_, by decide, by decide, by decide, by decide, by decide, ?_, ?_, by decide⟩
  · intro s a h
    rw [Password.classify, if_pos h]
    rfl
  · show Password.entropy 14 32 = 70
    rw [show (32 : ℕ) = 2 ^ 5 by norm_num, entropy_two_pow 14 5 (by norm_num)]
    norm_num
  · show Password.entropy 7 16 = 28
    rw [show (16 : ℕ) = 2 ^ 4 by norm_num, entropy_two_pow 7 4 (by norm_num)]
    norm_num

/-- Claim C10 witness: the byte-length classification equation at a concrete
accepted secret. -/
theorem c10_length_bytes_witness :
    Password.classify ("ab".toList) Alphabet.LowerCase =
      .ok (classifyTier (byteLen ("ab".toList))
        (byteLen (Alphabet.asStr Alphabet.LowerCase))) :=
  c10_length_bytes.1 ("ab".toList) Alphabet.LowerCase (by decide)

end PassGen
